import Mathlib

/-!
Shallow embedding of `rational-trees` (src/src/lib.rs): path vectors of
non-negative integers are encoded as 2×2 matrices of u64 values built from
continued-fraction convergents, and decoded by a Euclidean-style iterator.
u64 values are modelled as `Nat`; where the u64 wrapping semantics matters,
a second family of definitions reduces every arithmetic result mod 2^64.
-/

namespace RationalTrees

/-- The disambiguation offset added to every path element (src/src/lib.rs:23). -/
def FUDGE : Nat := 2

/-- The number of values of a u64, `2^64`; u64 arithmetic wraps mod this. -/
def U64SIZE : Nat := 2 ^ 64

/-- `PathIdentifier(u64, u64, u64, u64)` (src/src/lib.rs:26): a 2×2 matrix
`| s0 s1 | / | s2 s3 |` with u64 entries, modelled as naturals. -/
structure PathIdentifier where
  s0 : Nat
  s1 : Nat
  s2 : Nat
  s3 : Nat
deriving DecidableEq

/-- `PathIdentifier::root()` (src/src/lib.rs:29-31): the identity matrix. -/
def PathIdentifier.root : PathIdentifier := ⟨1, 0, 0, 1⟩

/-- `PathIdentifier::is_root()` (src/src/lib.rs:33-35): tests `self.1 == 0`. -/
def PathIdentifier.isRoot (c : PathIdentifier) : Bool := c.s1 == 0

/-- `PathIdentifier::from_path_element` (src/src/lib.rs:37-39). -/
def PathIdentifier.fromPathElement (e : Nat) : PathIdentifier := ⟨e, 1, 1, 0⟩

/-- `Mul for PathIdentifier` (src/src/lib.rs:45-54): 2×2 matrix product,
with exact (non-wrapping) arithmetic. -/
def PathIdentifier.mul (a b : PathIdentifier) : PathIdentifier :=
  ⟨a.s0 * b.s0 + a.s1 * b.s2,
   a.s0 * b.s1 + a.s1 * b.s3,
   a.s2 * b.s0 + a.s3 * b.s2,
   a.s2 * b.s1 + a.s3 * b.s3⟩

/-- The same matrix product under u64 wrapping semantics: every entry of the
result is reduced mod 2^64, as `*` and `+` on u64 wrap in release builds. -/
def PathIdentifier.mulW (a b : PathIdentifier) : PathIdentifier :=
  ⟨(a.s0 * b.s0 + a.s1 * b.s2) % U64SIZE,
   (a.s0 * b.s1 + a.s1 * b.s3) % U64SIZE,
   (a.s2 * b.s0 + a.s3 * b.s2) % U64SIZE,
   (a.s2 * b.s1 + a.s3 * b.s3) % U64SIZE⟩

/-- Reduce every entry of a matrix mod 2^64. -/
def PathIdentifier.wrapEntries (c : PathIdentifier) : PathIdentifier :=
  ⟨c.s0 % U64SIZE, c.s1 % U64SIZE, c.s2 % U64SIZE, c.s3 % U64SIZE⟩

/-- All four entries fit in a u64. -/
def PathIdentifier.inRange (c : PathIdentifier) : Prop :=
  c.s0 < U64SIZE ∧ c.s1 < U64SIZE ∧ c.s2 < U64SIZE ∧ c.s3 < U64SIZE

instance (c : PathIdentifier) : Decidable c.inRange := by
  unfold PathIdentifier.inRange; infer_instance

/-- `FromIterator<u64> for PathIdentifier` (src/src/lib.rs:70-81): fold the
elementary matrix of `piece + FUDGE` over the input, starting from the root;
exact (non-wrapping) arithmetic. -/
def fromIter (v : List Nat) : PathIdentifier :=
  v.foldl (fun id piece => id.mul (PathIdentifier.fromPathElement (piece + FUDGE))) .root

/-- The same fold under u64 wrapping semantics: `piece + FUDGE` and every
entry of each matrix product wrap mod 2^64. -/
def fromIterW (v : List Nat) : PathIdentifier :=
  v.foldl
    (fun id piece =>
      id.mulW (PathIdentifier.fromPathElement ((piece + FUDGE) % U64SIZE))) .root

/-- Helper: the same fold over already-offset elements (no `+ FUDGE`). -/
def encodeF (ws : List Nat) : PathIdentifier :=
  ws.foldl (fun id w => id.mul (PathIdentifier.fromPathElement w)) .root

/-- `Iterator::next for PathIterator` (src/src/lib.rs:122-137): returns
`none` on the root, else the quotient `s0 / s2` together with the advanced
state (the mutation of `self.current`). -/
def PathIterator.next (c : PathIdentifier) : Option (Nat × PathIdentifier) :=
  if c.isRoot then none
  else
    let result := c.s0 / c.s2
    some (result, ⟨c.s2, c.s3, c.s0 - c.s2 * result, c.s1 - c.s3 * result⟩)

/-- Collect up to `fuel` elements from the decoding iterator (the iterator in
the source is consumed step by step; `fuel` bounds the number of `next`
calls so the model is total on every input, valid or not). -/
def iterToList : Nat → PathIdentifier → List Nat
  | 0, _ => []
  | fuel + 1, c =>
    match PathIterator.next c with
    | none => []
    | some (r, c') => r :: iterToList fuel c'

/-- `PathIdentifier::path()` (src/src/lib.rs:141-143): the raw iterator with
`FUDGE` subtracted from every element. -/
def path (fuel : Nat) (c : PathIdentifier) : List Nat :=
  (iterToList fuel c).map (fun e => e - FUDGE)

/-- "The encoding of `v` stays within u64 range": every intermediate matrix
of the encoding fold (hence every u64 value the fold computes) fits in u64. -/
def EncodeInRange (v : List Nat) : Prop :=
  ∀ i ∈ List.range (v.length + 1), (fromIter (v.take i)).inRange

instance (v : List Nat) : Decidable (EncodeInRange v) := by
  unfold EncodeInRange; infer_instance

/-- Modelled from the spec: the standard-library integer parser
`u64::from_str` used at src/src/lib.rs:90 is not part of this repository's
sources. It accepts an optional leading plus sign followed by one or more
decimal digits denoting a value that fits in u64, and rejects the empty
component, any non-digit character, and out-of-range values. -/
def parseU64 (s : List Char) : Option Nat :=
  let digits := match s with
    | '+' :: rest => rest
    | _ => s
  if digits = [] then none
  else if digits.all (fun c => c.isDigit) then
    let n := digits.foldl (fun acc c => acc * 10 + (c.toNat - 48)) 0
    if n < U64SIZE then some n else none
  else none

/-- `str::split('.')` on a non-empty string (src/src/lib.rs:90): split on
every dot, keeping empty components. -/
def splitDot : List Char → List (List Char)
  | [] => [[]]
  | c :: rest =>
    if c = '.' then [] :: splitDot rest
    else
      match splitDot rest with
      | [] => [[c]]
      | r :: rs => (c :: r) :: rs

/-- The `collect::<Result<_, _>>` step of `from_str`: parse every component,
short-circuiting on the first failure. -/
def collectU64 : List (List Char) → Option (List Nat)
  | [] => some []
  | c :: rest =>
    match parseU64 c, collectU64 rest with
    | some n, some ns => some (n :: ns)
    | _, _ => none

/-- `FromStr for PathIdentifier` (src/src/lib.rs:86-92): the empty string is
the root; otherwise split on dots, parse each component, and encode. -/
def fromStr (s : List Char) : Option PathIdentifier :=
  if s = [] then some PathIdentifier.root
  else (collectU64 (splitDot s)).map fromIter

/-! ### Core lemmas about the encoder -/

lemma pid_mul_assoc (a b c : PathIdentifier) : (a.mul b).mul c = a.mul (b.mul c) := by
  simp only [PathIdentifier.mul, PathIdentifier.mk.injEq]
  refine ⟨by ring, by ring, by ring, by ring⟩

lemma root_mul (c : PathIdentifier) : PathIdentifier.root.mul c = c := by
  simp [PathIdentifier.mul, PathIdentifier.root]

lemma mul_root (c : PathIdentifier) : c.mul PathIdentifier.root = c := by
  simp [PathIdentifier.mul, PathIdentifier.root]

lemma foldl_mul_shift (ws : List Nat) :
    ∀ A : PathIdentifier,
      ws.foldl (fun id w => id.mul (PathIdentifier.fromPathElement w)) A =
        A.mul (encodeF ws) := by
  induction ws with
  | nil => intro A; simp [encodeF, mul_root]
  | cons w ws ih =>
    intro A
    simp only [List.foldl_cons, encodeF] at ih ⊢
    rw [ih, ih (PathIdentifier.root.mul (PathIdentifier.fromPathElement w)),
      root_mul, pid_mul_assoc]

lemma encodeF_cons (w : Nat) (ws : List Nat) :
    encodeF (w :: ws) = (PathIdentifier.fromPathElement w).mul (encodeF ws) := by
  simp only [encodeF, List.foldl_cons]
  rw [foldl_mul_shift, root_mul]
  rfl

lemma fromIter_eq_encodeF (v : List Nat) :
    fromIter v = encodeF (v.map (fun x => x + FUDGE)) := by
  rw [encodeF, List.foldl_map]
  rfl

lemma encodeF_append (ws1 ws2 : List Nat) :
    encodeF (ws1 ++ ws2) = (encodeF ws1).mul (encodeF ws2) := by
  simp only [encodeF, List.foldl_append]
  rw [foldl_mul_shift]
  rfl

/-- Invariant of every encoder-produced matrix: the first column is strictly
decreasing downwards, and the second column is not all zero. -/
lemma encodeF_inv (ws : List Nat) (h : ∀ w ∈ ws, 2 ≤ w) :
    (encodeF ws).s2 < (encodeF ws).s0 ∧
      (1 ≤ (encodeF ws).s1 ∨ 1 ≤ (encodeF ws).s3) := by
  induction ws with
  | nil => simp [encodeF, PathIdentifier.root]
  | cons a ws ih =>
    have ha : 2 ≤ a := h a (List.mem_cons_self a ws)
    obtain ⟨h0, hz⟩ := ih (fun w hw => h w (List.mem_cons_of_mem a hw))
    rw [encodeF_cons]
    set T := encodeF ws with hT
    simp only [PathIdentifier.mul, PathIdentifier.fromPathElement]
    have hmul : 2 * T.s0 ≤ a * T.s0 := Nat.mul_le_mul_right T.s0 ha
    constructor
    · omega
    · rcases hz with hz | hz
      · have : 1 * 1 ≤ a * T.s1 := Nat.mul_le_mul (by omega) hz
        omega
      · omega

/-- One step of the decoding iterator peels off the leading elementary
factor: on `fromPathElement a * T` with `T` satisfying the invariant, `next`
yields `a` and the state becomes `T`. -/
lemma next_elem_mul (a : Nat) (T : PathIdentifier) (ha : 1 ≤ a)
    (h0 : T.s2 < T.s0) (hz : 1 ≤ T.s1 ∨ 1 ≤ T.s3) :
    PathIterator.next ((PathIdentifier.fromPathElement a).mul T) = some (a, T) := by
  obtain ⟨t0, t1, t2, t3⟩ := T
  simp only at h0 hz
  have hs1 : ¬ (a * t1 + 1 * t3 = 0) := by
    rcases hz with hz | hz
    · have : 1 * 1 ≤ a * t1 := Nat.mul_le_mul ha hz
      omega
    · omega
  have hdiv : (a * t0 + 1 * t2) / (1 * t0 + 0 * t2) = a := by
    have h1 : (t0 * a + t2) / t0 = a + t2 / t0 := Nat.mul_add_div (by omega) a t2
    rw [Nat.div_eq_of_lt h0] at h1
    have h2 : a * t0 + 1 * t2 = t0 * a + t2 := by ring
    have h3 : 1 * t0 + 0 * t2 = t0 := by ring
    rw [h2, h3, h1, Nat.add_zero]
  have e2 : a * t0 + 1 * t2 - (1 * t0 + 0 * t2) * a = t2 := by
    have : (1 * t0 + 0 * t2) * a = a * t0 := by ring
    omega
  have e3 : a * t1 + 1 * t3 - (1 * t1 + 0 * t3) * a = t3 := by
    have : (1 * t1 + 0 * t3) * a = a * t1 := by ring
    omega
  simp only [PathIterator.next, PathIdentifier.mul, PathIdentifier.fromPathElement,
    PathIdentifier.isRoot, beq_iff_eq, hs1, if_false, hdiv, e2, e3]
  have e0 : 1 * t0 + 0 * t2 = t0 := by ring
  have e1 : 1 * t1 + 0 * t3 = t1 := by ring
  rw [e0, e1]

/-- The decoding iterator, run on `encodeF ws` with enough fuel, returns
exactly `ws` (for offset path vectors, i.e. every element at least 2). -/
lemma iterToList_encodeF (ws : List Nat) :
    ∀ fuel : Nat, (∀ w ∈ ws, 2 ≤ w) → ws.length ≤ fuel →
      iterToList fuel (encodeF ws) = ws := by
  induction ws with
  | nil =>
    intro fuel _ _
    match fuel with
    | 0 => rfl
    | fuel + 1 =>
      simp [iterToList, PathIterator.next, encodeF, PathIdentifier.isRoot,
        PathIdentifier.root]
  | cons a ws ih =>
    intro fuel h hlen
    match fuel with
    | 0 => simp at hlen
    | fuel + 1 =>
      have ha : 2 ≤ a := h a (List.mem_cons_self a ws)
      have hws : ∀ w ∈ ws, 2 ≤ w := fun w hw => h w (List.mem_cons_of_mem a hw)
      obtain ⟨h0, hz⟩ := encodeF_inv ws hws
      rw [encodeF_cons]
      simp only [iterToList, next_elem_mul a (encodeF ws) (by omega) h0 hz]
      rw [ih fuel hws (by simpa using hlen)]

/-- Round trip on raw (offset) elements. -/
lemma iterToList_fromIter (v : List Nat) (fuel : Nat) (hf : v.length ≤ fuel) :
    iterToList fuel (fromIter v) = v.map (fun x => x + FUDGE) := by
  rw [fromIter_eq_encodeF]
  refine iterToList_encodeF _ fuel ?_ (by simpa using hf)
  intro w hw
  simp only [List.mem_map] at hw
  obtain ⟨x, _, rfl⟩ := hw
  simp [FUDGE]

/-- Round trip: decoding an encoded vector with enough fuel returns it. -/
lemma path_fromIter (v : List Nat) (fuel : Nat) (hf : v.length ≤ fuel) :
    path fuel (fromIter v) = v := by
  rw [path, iterToList_fromIter v fuel hf, List.map_map]
  have hc : ((fun e => e - FUDGE) ∘ fun x => x + FUDGE) = id := by
    funext x
    simp [FUDGE]
  rw [hc, List.map_id]

/-! ### u64 wrapping semantics vs exact arithmetic -/

lemma wrapEntries_mul (a b : PathIdentifier) :
    (a.mul b).wrapEntries = a.wrapEntries.mulW b.wrapEntries := by
  simp only [PathIdentifier.mul, PathIdentifier.mulW, PathIdentifier.wrapEntries,
    PathIdentifier.mk.injEq]
  refine ⟨?_, ?_, ?_, ?_⟩ <;> simp [Nat.add_mod, Nat.mul_mod]

lemma wrapEntries_elem (e : Nat) :
    (PathIdentifier.fromPathElement e).wrapEntries =
      PathIdentifier.fromPathElement (e % U64SIZE) := by
  simp only [PathIdentifier.fromPathElement, PathIdentifier.wrapEntries,
    PathIdentifier.mk.injEq]
  refine ⟨?_, ?_, ?_, ?_⟩ <;> first | rfl | decide

lemma root_wrapEntries : PathIdentifier.root.wrapEntries = PathIdentifier.root := by
  decide

lemma fromIterW_wrap (v : List Nat) : fromIterW v = (fromIter v).wrapEntries := by
  have key : ∀ A : PathIdentifier,
      v.foldl
          (fun id piece =>
            id.mulW (PathIdentifier.fromPathElement ((piece + FUDGE) % U64SIZE)))
          A.wrapEntries =
        (v.foldl
            (fun id piece => id.mul (PathIdentifier.fromPathElement (piece + FUDGE)))
            A).wrapEntries := by
    induction v with
    | nil => intro A; rfl
    | cons p v ih =>
      intro A
      simp only [List.foldl_cons]
      rw [← wrapEntries_elem, ← wrapEntries_mul]
      exact ih (A.mul (PathIdentifier.fromPathElement (p + FUDGE)))
  have h := key PathIdentifier.root
  rw [root_wrapEntries] at h
  exact h

lemma wrapEntries_of_inRange (c : PathIdentifier) (h : c.inRange) : c.wrapEntries = c := by
  obtain ⟨t0, t1, t2, t3⟩ := c
  unfold PathIdentifier.inRange at h
  obtain ⟨h0, h1, h2, h3⟩ := h
  simp only [PathIdentifier.wrapEntries, PathIdentifier.mk.injEq]
  exact ⟨Nat.mod_eq_of_lt h0, Nat.mod_eq_of_lt h1, Nat.mod_eq_of_lt h2, Nat.mod_eq_of_lt h3⟩

lemma fromIterW_eq_fromIter (v : List Nat) (h : EncodeInRange v) :
    fromIterW v = fromIter v := by
  rw [fromIterW_wrap]
  apply wrapEntries_of_inRange
  have hv := h v.length (by simp)
  rwa [List.take_length] at hv

/-! ### Parsing lemmas -/

lemma collectU64_isSome (l : List (List Char)) :
    (collectU64 l).isSome ↔ ∀ c ∈ l, (parseU64 c).isSome := by
  induction l with
  | nil => simp [collectU64]
  | cons c rest ih =>
    simp only [collectU64]
    cases hp : parseU64 c with
    | none => simp [hp, List.forall_mem_cons, ← ih]
    | some n =>
      cases hr : collectU64 rest with
      | none => simp [hp, hr, List.forall_mem_cons, ← ih]
      | some ns => simp [hp, hr, List.forall_mem_cons, ← ih]

/-! ### Claim theorems -/

/-- Claim C1: for every path vector `v` of non-negative integers (including
the empty vector) whose encoding stays within the u64 range, decoding the
identifier produced by the (u64) encoder yields exactly `v`. The decoding
iterator is modelled with a fuel bound; any fuel of at least `v.length`
suffices. -/
theorem c1_encode_decode_roundtrip (v : List Nat) (fuel : Nat)
    (hv : EncodeInRange v) (hf : v.length ≤ fuel) :
    path fuel (fromIterW v) = v := by
  rw [fromIterW_eq_fromIter v hv]
  exact path_fromIter v fuel hf

/-- Witness instantiating C1 at `v = [3, 12, 5]`. -/
theorem c1_encode_decode_roundtrip_witness :
    EncodeInRange [3, 12, 5] ∧ ([3, 12, 5] : List Nat).length ≤ 3 ∧
      path 3 (fromIterW [3, 12, 5]) = [3, 12, 5] :=
  ⟨by decide, by decide, c1_encode_decode_roundtrip [3, 12, 5] 3 (by decide) (by decide)⟩

/-- Claim C2: the (u64) encoder is injective on path vectors whose encodings
stay within the u64 range: distinct vectors get distinct identifiers. -/
theorem c2_encode_injective (v1 v2 : List Nat)
    (h1 : EncodeInRange v1) (h2 : EncodeInRange v2) (hne : v1 ≠ v2) :
    fromIterW v1 ≠ fromIterW v2 := by
  intro heq
  apply hne
  have hpath := congrArg (path (max v1.length v2.length)) heq
  rwa [fromIterW_eq_fromIter v1 h1, fromIterW_eq_fromIter v2 h2,
    path_fromIter v1 _ (le_max_left _ _), path_fromIter v2 _ (le_max_right _ _)] at hpath

/-- Witness instantiating C2 at `[0]` and `[1]`. -/
theorem c2_encode_injective_witness :
    EncodeInRange [0] ∧ EncodeInRange [1] ∧ ([0] : List Nat) ≠ [1] ∧
      fromIterW [0] ≠ fromIterW [1] :=
  ⟨by decide, by decide, by decide,
    c2_encode_injective [0] [1] (by decide) (by decide) (by decide)⟩

/-- Claim C3, counterexample: the encoder performs no overflow detection.
Encoding `[2^32, 2^32]` overflows u64 in the matrix product; the u64
encoder silently wraps, yielding an identifier that differs from the exact
value and decodes to `[1, 0]`, not to the input — no error is surfaced
(`from_iter` returns a plain `PathIdentifier`, so it has no error channel). -/
theorem c3_overflow_not_surfaced_cex :
    fromIterW [2 ^ 32, 2 ^ 32] ≠ fromIter [2 ^ 32, 2 ^ 32] ∧
      path 2 (fromIterW [2 ^ 32, 2 ^ 32]) ≠ [2 ^ 32, 2 ^ 32] := by decide

/-- Claim C3, amended: the encoder does not detect overflow. Its arithmetic
is unchecked, so a fold that exceeds the u64 range wraps silently: the u64
encoder always returns the exact encoder's matrix with every entry reduced
mod 2^64, which breaks the round trip on out-of-range inputs. -/
theorem c3_encoder_wraps_silently (v : List Nat) :
    fromIterW v = (fromIter v).wrapEntries :=
  fromIterW_wrap v

/-- Claim C4: the reference table (offset 2). Each listed vector encodes to
the stated rational value, read off the matrix's first column as
numerator `s0` over denominator `s2`, and decodes back to the vector. -/
theorem c4_reference_vectors :
    ((fromIterW [3]).s0 = 5 ∧ (fromIterW [3]).s2 = 1 ∧
      path 1 (fromIterW [3]) = [3]) ∧
    ((fromIterW [3, 12]).s0 = 71 ∧ (fromIterW [3, 12]).s2 = 14 ∧
      path 2 (fromIterW [3, 12]) = [3, 12]) ∧
    ((fromIterW [3, 12, 5]).s0 = 502 ∧ (fromIterW [3, 12, 5]).s2 = 99 ∧
      path 3 (fromIterW [3, 12, 5]) = [3, 12, 5]) ∧
    ((fromIterW [3, 12, 5, 1]).s0 = 1577 ∧ (fromIterW [3, 12, 5, 1]).s2 = 311 ∧
      path 4 (fromIterW [3, 12, 5, 1]) = [3, 12, 5, 1]) ∧
    ((fromIterW [3, 12, 5, 1, 21]).s0 = 36773 ∧ (fromIterW [3, 12, 5, 1, 21]).s2 = 7252 ∧
      path 5 (fromIterW [3, 12, 5, 1, 21]) = [3, 12, 5, 1, 21]) := by decide

/-- Claim C5, counterexample: the root is not the unique encoder-produced
identifier decoding to the empty sequence. The u64 encoder at
`[2^64 - 2, 0]` wraps `(2^64 - 2) + FUDGE` to 0 and produces the matrix
`(1, 0, 2, 1)`: not the root, yet its second entry is 0, so `is_root`
holds of it and it decodes to `[]`. -/
theorem c5_unique_root_cex :
    fromIterW [2 ^ 64 - 2, 0] ≠ PathIdentifier.root ∧
      path 2 (fromIterW [2 ^ 64 - 2, 0]) = [] := by decide

/-- Claim C5, amended: encoding the empty sequence yields the root
identifier, the root decodes to the empty sequence, and among identifiers
produced by the u64 encoder from vectors whose encoding stays within the
u64 range, the root is the unique identifier decoding to the empty
sequence. -/
theorem c5_root_identity_inrange (v : List Nat) (fuel : Nat)
    (hv : EncodeInRange v) (hf : v.length ≤ fuel)
    (hdec : path fuel (fromIterW v) = []) :
    fromIterW [] = PathIdentifier.root ∧ path fuel PathIdentifier.root = [] ∧
      fromIterW v = PathIdentifier.root := by
  rw [fromIterW_eq_fromIter v hv] at hdec ⊢
  refine ⟨rfl, ?_, ?_⟩
  · cases fuel with
    | zero => rfl
    | succ n =>
      simp [path, iterToList, PathIterator.next, PathIdentifier.isRoot,
        PathIdentifier.root]
  · rw [path_fromIter v fuel hf] at hdec
    subst hdec
    rfl

/-- Witness instantiating amended C5 at `v = []`, fuel 3. -/
theorem c5_root_identity_inrange_witness :
    EncodeInRange [] ∧ ([] : List Nat).length ≤ 3 ∧ path 3 (fromIterW []) = [] ∧
      (fromIterW [] = PathIdentifier.root ∧ path 3 PathIdentifier.root = [] ∧
        fromIterW [] = PathIdentifier.root) :=
  ⟨by decide, by decide, by decide,
    c5_root_identity_inrange [] 3 (by decide) (by decide) (by decide)⟩

/-- Claim C6: the empty string parses to the root; a non-empty string is
split on dots and parses to the encoding of its parsed components, and it
succeeds exactly when every component is a valid u64 numeral (so any
non-numeric or empty component, e.g. from a leading or trailing dot, gives
`none` — a reported error; the model is a total function, never a panic). -/
theorem c6_parse_contract :
    fromStr [] = some PathIdentifier.root ∧
      ∀ s : List Char, s ≠ [] →
        fromStr s = (collectU64 (splitDot s)).map fromIter ∧
          ((fromStr s).isSome ↔ ∀ c ∈ splitDot s, (parseU64 c).isSome) := by
  refine ⟨rfl, fun s hs => ⟨?_, ?_⟩⟩
  · rw [fromStr, if_neg hs]
  · rw [fromStr, if_neg hs, Option.isSome_map']
    exact collectU64_isSome (splitDot s)

/-- Witness instantiating C6 at the string `3.12`. -/
theorem c6_parse_contract_witness :
    ('3' :: '.' :: '1' :: '2' :: []) ≠ ([] : List Char) ∧
      fromStr ('3' :: '.' :: '1' :: '2' :: []) =
        (collectU64 (splitDot ('3' :: '.' :: '1' :: '2' :: []))).map fromIter :=
  ⟨by decide, (c6_parse_contract.2 ('3' :: '.' :: '1' :: '2' :: []) (by decide)).1⟩

/-- Claim C7: for identifiers produced by the (u64) encoder from in-range
path vectors, equality of the underlying numeric matrices holds exactly
when the two identifiers decode to the same sequence. -/
theorem c7_eq_iff_same_decode (v1 v2 : List Nat) (fuel : Nat)
    (h1 : EncodeInRange v1) (h2 : EncodeInRange v2)
    (hf1 : v1.length ≤ fuel) (hf2 : v2.length ≤ fuel) :
    (fromIterW v1 = fromIterW v2 ↔
      path fuel (fromIterW v1) = path fuel (fromIterW v2)) := by
  constructor
  · intro h
    rw [h]
  · intro h
    rw [fromIterW_eq_fromIter v1 h1, fromIterW_eq_fromIter v2 h2] at h ⊢
    rw [path_fromIter v1 fuel hf1, path_fromIter v2 fuel hf2] at h
    rw [h]

/-- Witness instantiating C7 at `[3]` and `[12]`, fuel 1. -/
theorem c7_eq_iff_same_decode_witness :
    EncodeInRange [3] ∧ EncodeInRange [12] ∧ ([3] : List Nat).length ≤ 1 ∧
      ([12] : List Nat).length ≤ 1 ∧
      (fromIterW [3] = fromIterW [12] ↔
        path 1 (fromIterW [3]) = path 1 (fromIterW [12])) :=
  ⟨by decide, by decide, by decide, by decide,
    c7_eq_iff_same_decode [3] [12] 1 (by decide) (by decide) (by decide) (by decide)⟩

/-- Claim C8: matrix multiplication concatenates paths —
`encode (v1 ++ v2) = encode v1 * encode v2`, both for the exact matrices
and for their u64 (wrapping) counterparts — and the root (identity matrix)
is a two-sided identity for the multiplication. -/
theorem c8_mul_concatenates (v1 v2 : List Nat) :
    fromIter (v1 ++ v2) = (fromIter v1).mul (fromIter v2) ∧
      fromIterW (v1 ++ v2) = (fromIterW v1).mulW (fromIterW v2) ∧
      ∀ c : PathIdentifier,
        PathIdentifier.root.mul c = c ∧ c.mul PathIdentifier.root = c := by
  have hexact : fromIter (v1 ++ v2) = (fromIter v1).mul (fromIter v2) := by
    rw [fromIter_eq_encodeF, List.map_append, encodeF_append,
      ← fromIter_eq_encodeF, ← fromIter_eq_encodeF]
  refine ⟨hexact, ?_, fun c => ⟨root_mul c, mul_root c⟩⟩
  rw [fromIterW_wrap, fromIterW_wrap, fromIterW_wrap, hexact, wrapEntries_mul]

/-- Claim C9, counterexample: for an out-of-range input the element count
is wrong. `[2^64 - 2, 0]` has length 2, but the u64 encoder wraps it to the
matrix `(1, 0, 2, 1)`, whose second entry is 0, so the iterator stops
immediately and yields 0 elements. -/
theorem c9_decode_not_finite_cex :
    (iterToList 2 (fromIterW [2 ^ 64 - 2, 0])).length ≠
      ([2 ^ 64 - 2, 0] : List Nat).length := by decide

/-- Claim C9, amended: for every identifier produced by the u64 encoder
from a vector whose encoding stays within the u64 range, the decoding
iterator terminates — with any fuel of at least `v.length` it yields
exactly `v.length` elements (further fuel yields nothing more, the state
having reached the root). -/
theorem c9_decode_finite_inrange (v : List Nat) (fuel : Nat)
    (hv : EncodeInRange v) (hf : v.length ≤ fuel) :
    (iterToList fuel (fromIterW v)).length = v.length := by
  rw [fromIterW_eq_fromIter v hv, iterToList_fromIter v fuel hf, List.length_map]

/-- Witness instantiating amended C9 at `v = [3, 12]` with surplus fuel 7. -/
theorem c9_decode_finite_inrange_witness :
    EncodeInRange [3, 12] ∧ ([3, 12] : List Nat).length ≤ 7 ∧
      (iterToList 7 (fromIterW [3, 12])).length = ([3, 12] : List Nat).length :=
  ⟨by decide, by decide, c9_decode_finite_inrange [3, 12] 7 (by decide) (by decide)⟩

/-- Claim C10, counterexample: out of range the quotient bound fails. The
u64 encoder at `[2^32, 2^32]` wraps, and the internal iterator on the
wrapped identifier yields the raw quotients `[3, 1]`: the second quotient
is 1 < FUDGE, so the subtraction `element - FUDGE` in `path()` underflows
there. -/
theorem c10_low_quotient_cex :
    iterToList 2 (fromIterW [2 ^ 32, 2 ^ 32]) = [3, 1] ∧ ¬ FUDGE ≤ 1 := by decide

/-- Claim C10, amended: for every identifier produced by the u64 encoder
from a vector whose encoding stays within the u64 range, every raw
quotient yielded by the internal iterator is at least `FUDGE = 2`, so the
subtraction `element - FUDGE` in `path()` never underflows and every
reported path element is a well-defined non-negative integer. -/
theorem c10_quotients_inrange (v : List Nat) (fuel : Nat)
    (hv : EncodeInRange v) (hf : v.length ≤ fuel) :
    ∀ e ∈ iterToList fuel (fromIterW v), FUDGE ≤ e ∧ (e - FUDGE) + FUDGE = e := by
  rw [fromIterW_eq_fromIter v hv, iterToList_fromIter v fuel hf]
  intro e he
  simp only [List.mem_map] at he
  obtain ⟨x, _, rfl⟩ := he
  have hF : FUDGE = 2 := rfl
  omega

/-- Witness instantiating amended C10 at `v = [3]`: the raw quotient is 5. -/
theorem c10_quotients_inrange_witness :
    EncodeInRange [3] ∧ ([3] : List Nat).length ≤ 1 ∧
      (5 : Nat) ∈ iterToList 1 (fromIterW [3]) ∧
      FUDGE ≤ 5 ∧ (5 - FUDGE) + FUDGE = 5 :=
  ⟨by decide, by decide, by decide,
    c10_quotients_inrange [3] 1 (by decide) (by decide) 5 (by decide)⟩

end RationalTrees
